import Mathlib

/-!
Verification of the directory-scanning / tile-reconciliation core of the
gamiphoto `photoview` crate (`src/lib.rs`), as a shallow embedding.

Modelling conventions:
* A filesystem path is its list of components (`FsPath`).
* The disk is a tree of named nodes (`FSTree`); a directory carries a
  `readable` flag modelling whether `fs::read_dir` succeeds on it.
* `f32` arithmetic of the grid layout is modelled exactly over `ℚ`
  (all constants and all values reached by the code are exactly
  representable in `f32` for any realistic image count, in particular the
  conversion `len as f32` and `sqrt().ceil()` are exact for counts below
  `2^24`).
* The fallible Rust functions return their `Result` as a `Bool` flag
  (`true` = `Ok(())`); the `&mut Vec` accumulator of
  `collect_images_recursive` is threaded explicitly, so entries pushed
  before an `Err` are retained, exactly as in the source.
-/

/-- A filesystem path, given by its list of components. -/
abbrev FsPath := List String

/-- Split a list of characters at its last dot: `some (before, after)`,
or `none` when there is no dot. Used to model `Path::extension`. -/
def lastDotSplit : List Char → Option (List Char × List Char)
  | [] => none
  | c :: cs =>
    match lastDotSplit cs with
    | some (b, a) => some (c :: b, a)
    | none => if c = '.' then some ([], cs) else none

/-- Models Rust `Path::extension` on a file name: the portion after the
last dot, `none` when the name has no dot or when its only dot is the
leading one (hidden files such as `.gitignore` have no extension). -/
def extension (name : String) : Option String :=
  let cs : List Char :=
    match name.data with
    | '.' :: rest => rest
    | l => l
  (lastDotSplit cs).map (fun pr => String.mk pr.2)

/-- Models `str::to_lowercase` on the ASCII range (the only range whose
lowercasing can coincide with one of the ASCII extension constants). -/
def toLowercaseStr (s : String) : String := String.mk (s.data.map Char.toLower)

/-- `WatchedDirs::SUPPORTED_EXTENSIONS`. -/
def SUPPORTED_EXTENSIONS : List String :=
  ["jpg", "jpeg", "png", "gif", "bmp", "tiff", "tif", "webp", "ico", "svg"]

/-- `WatchedDirs::is_supported_image`: the extension of the path's final
component, lowercased, must be in the supported list. -/
def is_supported_image (path : FsPath) : Bool :=
  match path.getLast? with
  | some name =>
    match extension name with
    | some ext_str => SUPPORTED_EXTENSIONS.contains (toLowercaseStr ext_str)
    | none => false
  | none => false

mutual
/-- A modelled filesystem node: a plain file, or a directory whose
`readable` flag says whether `fs::read_dir` succeeds on it. -/
inductive FSTree where
  | file (name : String)
  | dir (name : String) (readable : Bool) (entries : FSList)

/-- The entries of a directory, in the order `read_dir` yields them. -/
inductive FSList where
  | nil
  | cons (e : FSTree) (rest : FSList)
end

mutual
/-- `WatchedDirs::collect_images_recursive`. `p` is the path of node `t`;
the returned `Bool` models the `Result` (`true` = `Ok(())`), and the
accumulated image list is returned even on error, as the Rust
accumulator is a `&mut Vec` that keeps entries pushed before the error. -/
def collect_images_recursive (p : FsPath) (t : FSTree) (images : List FsPath) :
    List FsPath × Bool :=
  match t with
  | .file _ => (images, true)
  | .dir _ false _ => (images, false)
  | .dir _ true es => collectEntries p es images

/-- The `for entry in entries` loop of `collect_images_recursive`: an error
from a subdirectory is propagated by `?`, aborting the rest of the loop. -/
def collectEntries (p : FsPath) (es : FSList) (images : List FsPath) :
    List FsPath × Bool :=
  match es with
  | .nil => (images, true)
  | .cons (.file n) rest =>
    if is_supported_image (p ++ [n]) then collectEntries p rest (images ++ [p ++ [n]])
    else collectEntries p rest images
  | .cons (.dir n r sub) rest =>
    match collect_images_recursive (p ++ [n]) (.dir n r sub) images with
    | (images2, true) => collectEntries p rest images2
    | (images2, false) => (images2, false)
end

/-- First entry with the given name in a directory listing. -/
def findEntry (n : String) : FSList → Option FSTree
  | .nil => none
  | .cons (.file m) rest => if m = n then some (.file m) else findEntry n rest
  | .cons (.dir m r sub) rest => if m = n then some (.dir m r sub) else findEntry n rest

/-- Path resolution against the modelled disk: `resolve fs p = some t` iff
the path exists (`Path::exists`) and denotes node `t`. -/
def resolve : FSTree → FsPath → Option FSTree
  | t, [] => some t
  | .file _, _ :: _ => none
  | .dir _ _ es, n :: rest =>
    match findEntry n es with
    | some t => resolve t rest
    | none => none

/-- The `WatchedDirs` resource: watched roots and the images found by the
most recent scan. -/
structure WatchedDirs where
  dirs : List FsPath
  imgs : List FsPath

/-- The body of the `for dir in &self.dirs` loop of `WatchedDirs::scan` for
one root: a missing root is skipped (warning logged), and an error from
`collect_images_recursive` is logged and discarded, keeping the images
collected so far. -/
def scanRoot (fs : FSTree) (images : List FsPath) (dir : FsPath) : List FsPath :=
  match resolve fs dir with
  | some t => (collect_images_recursive dir t images).1
  | none => images

/-- `WatchedDirs::scan`: clears `imgs`, then collects images from every
root in order. `fs` models the current disk state. -/
def WatchedDirs.scan (fs : FSTree) (w : WatchedDirs) : WatchedDirs :=
  { w with imgs := w.dirs.foldl (scanRoot fs) [] }

/-- `WatchedDirs::should_run`: the `run_if` guard of `slap_img_on_quad`. -/
def WatchedDirs.should_run (res : WatchedDirs) : Bool := !res.imgs.isEmpty

/-- The `scan_interval` constant of `scan_directories_system` (5 seconds). -/
def scan_interval : ℚ := 5

/-- `scan_directories_system`: the rate-limited scan step. `elapsed` models
`time.elapsed_secs()` and `last_scan` the `Local<Option<f32>>` state; the
step is a no-op when a previous scan exists and less than `scan_interval`
has elapsed since it. -/
def scan_directories_system (fs : FSTree) (elapsed : ℚ) (w : WatchedDirs)
    (last_scan : Option ℚ) : WatchedDirs × Option ℚ :=
  match last_scan with
  | some last =>
    if elapsed - last < scan_interval then (w, last_scan)
    else (w.scan fs, some elapsed)
  | none => (w.scan fs, some elapsed)

/-- The grid side length used by `slap_img_on_quad`:
`(imgs.len() as f32).sqrt().ceil() as i32`. The helper performs a linear
search for the least `k` with `n ≤ k * k`, which equals the ceiling of the
real square root; the `f32` computation of the source is exact on this
function's whole realistic domain (`n < 2^24`). `fuel` only forces
structural termination and is always sufficient at `n + 1`. -/
def sqrtCeilGo (n : Nat) : Nat → Nat → Nat
  | 0, k => k
  | fuel + 1, k => if n ≤ k * k then k else sqrtCeilGo n fuel (k + 1)

/-- `grid_size` as computed at the start of `slap_img_on_quad`. -/
def gridSize (n : Nat) : Nat := sqrtCeilGo n (n + 1) 0

/-- The `quad_spacing` constant (2.5). -/
def quad_spacing : ℚ := 5 / 2

/-- The `quad_size` constant (2.0); the mesh size does not affect placement. -/
def quad_size : ℚ := 2

/-- `calculate_grid_position`. Rust computes `row`/`col` with `i32`
division and remainder; both operands are nonnegative there, where `i32`
and `Nat` division/remainder agree (and `grid_size` is never zero when the
function is reached, see the safety claim). The `f32` world coordinates
are modelled exactly over `ℚ`. -/
def calculate_grid_position (index : Nat) (grid_size : Nat) (spacing : ℚ) :
    ℚ × ℚ × ℚ :=
  let row := index / grid_size
  let col := index % grid_size
  let offset_x := ((grid_size : ℚ) - 1) * spacing * (1 / 2)
  let offset_z := ((grid_size : ℚ) - 1) * spacing * (1 / 2)
  ((col : ℚ) * spacing - offset_x, 0, (row : ℚ) * spacing - offset_z)

/-- A spawned quad, reduced to the two fields the reconciler determines:
its `ImageMarker` target path and its `Transform` translation. -/
structure Tile where
  target : FsPath
  position : ℚ × ℚ × ℚ
deriving DecidableEq

/-- The `Commands` operations relevant to marker entities. Both spawn and
despawn exist in the engine; `slap_img_on_quad` only ever issues spawns. -/
inductive ECSCommand where
  | spawn (tile : Tile)
  | despawn (target : FsPath)
deriving DecidableEq

/-- `slap_img_on_quad`: one reconciliation pass. `existing_paths` is the
set of `ImageMarker` targets of the `existing_quads` query; for each
`(index, img_path)` of `imgs.iter().enumerate()` whose path is not already
present, one spawn command is queued, at the grid position computed from
the index within the full `imgs` sequence. -/
def slap_img_on_quad (imgs : List FsPath) (existing_paths : List FsPath) :
    List ECSCommand :=
  let grid_size := gridSize imgs.length
  imgs.enum.filterMap (fun ip =>
    if existing_paths.contains ip.2 then none
    else some (.spawn { target := ip.2
                        position := calculate_grid_position ip.1 grid_size quad_spacing }))

/-- Deferred application of queued commands to the world of marker
entities at the end of the frame. -/
def applyCommands : List ECSCommand → List Tile → List Tile
  | [], world => world
  | .spawn t :: cs, world => applyCommands cs (world ++ [t])
  | .despawn p :: cs, world => applyCommands cs (world.filter (fun t => t.target ≠ p))

/-- The tiles a single reconciliation pass spawns. -/
def spawnedTiles (imgs existing_paths : List FsPath) : List Tile :=
  (slap_img_on_quad imgs existing_paths).filterMap (fun c =>
    match c with
    | .spawn t => some t
    | .despawn _ => none)

/-- One `Update`-schedule step: `slap_img_on_quad` guarded by
`run_if(WatchedDirs::should_run)`, with its commands applied to the
world; the pass reads the existing paths from the current world. -/
def update_step (w : WatchedDirs) (world : List Tile) : List Tile :=
  if WatchedDirs.should_run w then
    applyCommands (slap_img_on_quad w.imgs (world.map Tile.target)) world
  else world

/-- A sequence of reconciliation passes: each pass sees the tiles created
by the earlier ones (the deferred commands of a pass are applied before
the next pass queries `existing_quads`). -/
def runPasses (foundLists : List (List FsPath)) (world : List Tile) : List Tile :=
  foundLists.foldl (fun wld f => update_step { dirs := [], imgs := f } wld) world

/-- Spec-side, for the scanner refinement claim: the supported image files
reachable strictly below a directory listing, `p` being the path of the
directory that owns `es`; readability flags are ignored, matching the
spec's description of the set of files "reachable recursively under the
existing roots". -/
def specImagesL (p : FsPath) : FSList → List FsPath
  | .nil => []
  | .cons (.file n) rest =>
    (if is_supported_image (p ++ [n]) then [p ++ [n]] else []) ++ specImagesL p rest
  | .cons (.dir n _ sub) rest => specImagesL (p ++ [n]) sub ++ specImagesL p rest

/-- Spec-side: the supported image files reachable below a node whose own
path is `p` (a plain file has nothing below it). -/
def specImagesT (p : FsPath) : FSTree → List FsPath
  | .file _ => []
  | .dir _ _ es => specImagesL p es

/-- Spec-side: the files the spec expects a root path to contribute; a
root that does not exist contributes nothing. -/
def specImagesRoot (fs : FSTree) (dir : FsPath) : List FsPath :=
  match resolve fs dir with
  | some t => specImagesT dir t
  | none => []

/-- What one root actually contributes to a scan that starts from an empty
accumulator. -/
def rootContrib (fs : FSTree) (dir : FsPath) : List FsPath := scanRoot fs [] dir

mutual
/-- Every directory at or below this node is readable (no traversal error
can occur below it). -/
def allReadableT : FSTree → Bool
  | .file _ => true
  | .dir _ r es => r && allReadableL es

/-- Every directory below one of these entries is readable. -/
def allReadableL : FSList → Bool
  | .nil => true
  | .cons e rest => allReadableT e && allReadableL rest
end

/-- The name of a directory entry. -/
def entryName : FSTree → String
  | .file n => n
  | .dir n _ _ => n

/-- The entry names of a directory listing, in order. -/
def namesOf : FSList → List String
  | .nil => []
  | .cons e rest => entryName e :: namesOf rest

/-- Boolean distinctness of a list of names. -/
def nodupStr : List String → Bool
  | [] => true
  | n :: rest => !rest.contains n && nodupStr rest

/-- Well-formedness of the entries below a directory: inside every
directory, sibling names are distinct (true of every real filesystem). -/
def wfEntries : FSList → Bool
  | .nil => true
  | .cons (.file _) rest => wfEntries rest
  | .cons (.dir _ _ sub) rest => (nodupStr (namesOf sub) && wfEntries sub) && wfEntries rest

/-- Well-formedness of a filesystem node. -/
def wfT : FSTree → Bool
  | .file _ => true
  | .dir _ _ es => nodupStr (namesOf es) && wfEntries es

/-- A concrete demo disk, following the spec's scenario: root `a` holds
`x.jpg` and a subdirectory `sub` with `y.PNG` and `z.txt`. -/
def fsDemo : FSTree :=
  .dir "" true
    (.cons (.dir "a" true
      (.cons (.file "x.jpg")
      (.cons (.dir "sub" true
        (.cons (.file "y.PNG") (.cons (.file "z.txt") .nil)))
      .nil)))
    .nil)

/-- A concrete disk where root `r` holds an unreadable directory `bad`
followed by a matching file `ok.jpg`. -/
def fsErr : FSTree :=
  .dir "" true
    (.cons (.dir "r" true
      (.cons (.dir "bad" false .nil)
      (.cons (.file "ok.jpg")
      .nil)))
    .nil)

/-- The node `fsErr` holds at path `r`. -/
def nodeR : FSTree :=
  .dir "r" true (.cons (.dir "bad" false .nil) (.cons (.file "ok.jpg") .nil))

/-- A concrete tile used to exercise the frame property. -/
def sampleTile : Tile := { target := ["w.jpg"], position := (0, 0, 0) }

/-! ### Helper lemmas about the scanner -/

theorem nodupStr_iff (l : List String) : nodupStr l = true ↔ l.Nodup := by
  induction l with
  | nil => simp [nodupStr]
  | cons n rest ih => simp [nodupStr, List.elem_iff, ih, List.nodup_cons]

mutual
/-- The accumulator of `collect_images_recursive` is pure append-state. -/
def collectT_acc : ∀ (p : FsPath) (t : FSTree) (acc : List FsPath),
    collect_images_recursive p t acc =
      (acc ++ (collect_images_recursive p t []).1, (collect_images_recursive p t []).2)
  | _, .file _, _ => by simp [collect_images_recursive]
  | _, .dir _ false _, _ => by simp [collect_images_recursive]
  | p, .dir n true es, acc => by
    simp only [collect_images_recursive]
    exact collectL_acc p es acc

/-- The accumulator of the entries loop is pure append-state. -/
def collectL_acc : ∀ (p : FsPath) (es : FSList) (acc : List FsPath),
    collectEntries p es acc =
      (acc ++ (collectEntries p es []).1, (collectEntries p es []).2)
  | _, .nil, _ => by simp [collectEntries]
  | p, .cons (.file n) rest, acc => by
    by_cases h : is_supported_image (p ++ [n])
    · simp only [collectEntries, h, if_true, List.nil_append]
      rw [collectL_acc p rest (acc ++ [p ++ [n]]), collectL_acc p rest [p ++ [n]]]
      simp
    · simp only [collectEntries, h, if_false]
      exact collectL_acc p rest acc
  | p, .cons (.dir n r sub) rest, acc => by
    cases r with
    | false => simp [collectEntries, collect_images_recursive]
    | true =>
      have hsub : collect_images_recursive (p ++ [n]) (.dir n true sub) acc =
          (acc ++ (collectEntries (p ++ [n]) sub []).1,
           (collectEntries (p ++ [n]) sub []).2) := by
        simp only [collect_images_recursive]
        exact collectL_acc (p ++ [n]) sub acc
      have hsub0 : collect_images_recursive (p ++ [n]) (.dir n true sub) [] =
          ((collectEntries (p ++ [n]) sub []).1, (collectEntries (p ++ [n]) sub []).2) := by
        simp only [collect_images_recursive]
      cases h2 : (collectEntries (p ++ [n]) sub []).2 with
      | true =>
        simp only [collectEntries, hsub, hsub0, h2]
        rw [collectL_acc p rest (acc ++ (collectEntries (p ++ [n]) sub []).1),
          collectL_acc p rest (collectEntries (p ++ [n]) sub []).1]
        simp
      | false =>
        simp only [collectEntries, hsub, hsub0, h2]
end

mutual
/-- When every directory below `t` is readable, the traversal collects
exactly the spec-side reachable image files, and reports success. -/
def collectT_full : ∀ (p : FsPath) (t : FSTree), allReadableT t = true →
    collect_images_recursive p t [] = (specImagesT p t, true)
  | _, .file _, _ => by simp [collect_images_recursive, specImagesT]
  | p, .dir n r es, h => by
    have hr : r = true ∧ allReadableL es = true := by
      simpa [allReadableT, Bool.and_eq_true] using h
    obtain ⟨rfl, hL⟩ := hr
    simp only [collect_images_recursive, specImagesT]
    exact collectL_full p es hL

/-- When every directory below the entries is readable, the entries loop
collects exactly the spec-side reachable image files, with success. -/
def collectL_full : ∀ (p : FsPath) (es : FSList), allReadableL es = true →
    collectEntries p es [] = (specImagesL p es, true)
  | _, .nil, _ => by simp [collectEntries, specImagesL]
  | p, .cons (.file n) rest, h => by
    have hrest : allReadableL rest = true := by
      simpa [allReadableL, allReadableT, Bool.and_eq_true] using h
    by_cases hs : is_supported_image (p ++ [n])
    · simp only [collectEntries, hs, if_true, specImagesL, List.nil_append]
      rw [collectL_acc p rest [p ++ [n]], collectL_full p rest hrest]
    · have hs' : is_supported_image (p ++ [n]) = false := by simpa using hs
      simp only [collectEntries, hs', Bool.false_eq_true, if_false, specImagesL,
        List.nil_append]
      rw [collectL_full p rest hrest]
  | p, .cons (.dir n r sub) rest, h => by
    have hr : (r = true ∧ allReadableL sub = true) ∧ allReadableL rest = true := by
      simpa [allReadableL, allReadableT, Bool.and_eq_true, and_assoc] using h
    obtain ⟨⟨rfl, hsub⟩, hrest⟩ := hr
    have h1 : collect_images_recursive (p ++ [n]) (.dir n true sub) [] =
        (specImagesL (p ++ [n]) sub, true) := by
      simp only [collect_images_recursive]
      exact collectL_full (p ++ [n]) sub hsub
    simp only [collectEntries, h1, specImagesL]
    rw [collectL_acc p rest (specImagesL (p ++ [n]) sub), collectL_full p rest hrest]
end

mutual
/-- The traversal result is always an initial segment of the spec-side
reachable image files, and equals it whenever the traversal succeeds. -/
def collectT_pre : ∀ (p : FsPath) (t : FSTree),
    (collect_images_recursive p t []).1 <+: specImagesT p t
    ∧ ((collect_images_recursive p t []).2 = true →
        (collect_images_recursive p t []).1 = specImagesT p t)
  | _, .file _ => by simp [collect_images_recursive, specImagesT]
  | p, .dir n false es => by
    constructor
    · simp only [collect_images_recursive]
      exact List.nil_prefix
    · intro h
      simp [collect_images_recursive] at h
  | p, .dir n true es => by
    simp only [collect_images_recursive, specImagesT]
    exact collectL_pre p es

/-- Same statement for the entries loop. -/
def collectL_pre : ∀ (p : FsPath) (es : FSList),
    (collectEntries p es []).1 <+: specImagesL p es
    ∧ ((collectEntries p es []).2 = true →
        (collectEntries p es []).1 = specImagesL p es)
  | _, .nil => by simp [collectEntries, specImagesL]
  | p, .cons (.file n) rest => by
    by_cases hs : is_supported_image (p ++ [n])
    · simp only [collectEntries, hs, if_true, specImagesL, List.nil_append]
      rw [collectL_acc p rest [p ++ [n]]]
      obtain ⟨⟨u, hu⟩, heq⟩ := collectL_pre p rest
      refine ⟨⟨u, by simpa using hu⟩, fun h2 => ?_⟩
      simp only [heq h2]
    · have hs' : is_supported_image (p ++ [n]) = false := by simpa using hs
      simp only [collectEntries, hs', Bool.false_eq_true, if_false, specImagesL,
        List.nil_append]
      exact collectL_pre p rest
  | p, .cons (.dir n r sub) rest => by
    cases r with
    | false =>
      constructor
      · simp only [collectEntries, collect_images_recursive]
        exact List.nil_prefix
      · intro h
        simp [collectEntries, collect_images_recursive] at h
    | true =>
      have hsub0 : collect_images_recursive (p ++ [n]) (.dir n true sub) [] =
          ((collectEntries (p ++ [n]) sub []).1, (collectEntries (p ++ [n]) sub []).2) := by
        simp only [collect_images_recursive]
      obtain ⟨⟨u, hu⟩, hequ⟩ := collectL_pre (p ++ [n]) sub
      cases h2 : (collectEntries (p ++ [n]) sub []).2 with
      | true =>
        have hfull : (collectEntries (p ++ [n]) sub []).1 = specImagesL (p ++ [n]) sub :=
          hequ h2
        simp only [collectEntries, hsub0, h2, specImagesL]
        rw [collectL_acc p rest (collectEntries (p ++ [n]) sub []).1, hfull]
        obtain ⟨⟨v, hv⟩, heqr⟩ := collectL_pre p rest
        refine ⟨⟨v, by rw [List.append_assoc, hv]⟩, fun hr2 => ?_⟩
        simp only [heqr hr2]
      | false =>
        simp only [collectEntries, hsub0, h2, specImagesL]
        constructor
        · exact ⟨u ++ specImagesL p rest, by rw [← List.append_assoc, hu]⟩
        · intro h
          simp at h
end

/-- Every spec-side reachable file below a listing lies strictly below its
directory, entering through one of the listing's entry names. -/
def specL_shape : ∀ (p : FsPath) (es : FSList) (q : FsPath), q ∈ specImagesL p es →
    ∃ m s, q = p ++ m :: s ∧ m ∈ namesOf es
  | p, .nil, q => by simp [specImagesL]
  | p, .cons (.file n) rest, q => by
    intro hq
    simp only [specImagesL] at hq
    rcases List.mem_append.1 hq with h | h
    · have hq' : q = p ++ [n] := by
        by_cases hs : is_supported_image (p ++ [n]) <;> simp [hs] at h
        · exact h
      exact ⟨n, [], hq', by simp [namesOf, entryName]⟩
    · obtain ⟨m, s, rfl, hm⟩ := specL_shape p rest q h
      exact ⟨m, s, rfl, by simp [namesOf, entryName, hm]⟩
  | p, .cons (.dir n r sub) rest, q => by
    intro hq
    simp only [specImagesL] at hq
    rcases List.mem_append.1 hq with h | h
    · obtain ⟨m, s, rfl, _⟩ := specL_shape (p ++ [n]) sub q h
      exact ⟨n, m :: s, by simp, by simp [namesOf, entryName]⟩
    · obtain ⟨m, s, rfl, hm⟩ := specL_shape p rest q h
      exact ⟨m, s, rfl, by simp [namesOf, entryName, hm]⟩

/-- In a well-formed listing, the spec-side reachable files are pairwise
distinct. -/
def specL_nodup : ∀ (p : FsPath) (es : FSList),
    nodupStr (namesOf es) = true → wfEntries es = true → (specImagesL p es).Nodup
  | _, .nil, _, _ => by simp [specImagesL]
  | p, .cons (.file n) rest, hn, hw => by
    have hn' : (namesOf rest).contains n = false ∧ nodupStr (namesOf rest) = true := by
      simpa [namesOf, entryName, nodupStr, Bool.and_eq_true] using hn
    have hw' : wfEntries rest = true := by simpa [wfEntries] using hw
    have hrest := specL_nodup p rest hn'.2 hw'
    by_cases hs : is_supported_image (p ++ [n])
    · simp only [specImagesL, hs, if_true, List.singleton_append, List.nodup_cons]
      refine ⟨fun hmem => ?_, hrest⟩
      obtain ⟨m, s, he, hm⟩ := specL_shape p rest _ hmem
      have : ([n] : List String) = m :: s := List.append_cancel_left he
      obtain ⟨rfl, rfl⟩ : m = n ∧ s = [] := by simpa using this.symm
      have : (namesOf rest).contains m = true := by
        simpa [List.elem_iff] using hm
      rw [hn'.1] at this
      exact Bool.false_ne_true this
    · simpa [specImagesL, hs] using hrest
  | p, .cons (.dir n r sub) rest, hn, hw => by
    have hn' : (namesOf rest).contains n = false ∧ nodupStr (namesOf rest) = true := by
      simpa [namesOf, entryName, nodupStr, Bool.and_eq_true] using hn
    have hw' : (nodupStr (namesOf sub) = true ∧ wfEntries sub = true)
        ∧ wfEntries rest = true := by
      simpa [wfEntries, Bool.and_eq_true] using hw
    have hsub := specL_nodup (p ++ [n]) sub hw'.1.1 hw'.1.2
    have hrest := specL_nodup p rest hn'.2 hw'.2
    simp only [specImagesL]
    refine List.Nodup.append hsub hrest (fun q hq1 hq2 => ?_)
    obtain ⟨m1, s1, he1, _⟩ := specL_shape (p ++ [n]) sub q hq1
    obtain ⟨m2, s2, he2, hm2⟩ := specL_shape p rest q hq2
    have : n :: (m1 :: s1) = m2 :: s2 := by
      refine List.append_cancel_left (show p ++ (n :: m1 :: s1) = p ++ (m2 :: s2) from ?_)
      rw [← he2, he1]
      simp
    have hn2 : m2 = n := by simpa using (congrArg (fun l => l.head?) this).symm
    subst hn2
    have : (namesOf rest).contains m2 = true := by simpa [List.elem_iff] using hm2
    rw [hn'.1] at this
    exact Bool.false_ne_true this

/-- In a well-formed tree, the spec-side reachable files are pairwise
distinct. -/
theorem specT_nodup (p : FsPath) (t : FSTree) (h : wfT t = true) :
    (specImagesT p t).Nodup := by
  cases t with
  | file _ => simp [specImagesT]
  | dir n r es =>
    have h' : nodupStr (namesOf es) = true ∧ wfEntries es = true := by
      simpa [wfT, Bool.and_eq_true] using h
    exact specL_nodup p es h'.1 h'.2

/-- Every spec-side reachable file below a node lies strictly below it. -/
theorem specT_under (p : FsPath) (t : FSTree) (q : FsPath)
    (h : q ∈ specImagesT p t) : ∃ m s, q = p ++ m :: s := by
  cases t with
  | file _ => simp [specImagesT] at h
  | dir n r es =>
    obtain ⟨m, s, he, _⟩ := specL_shape p es q (by simpa [specImagesT] using h)
    exact ⟨m, s, he⟩

/-- An entry found by name in a well-formed listing is well-formed. -/
def findEntry_wf : ∀ (n : String) (es : FSList) (t : FSTree),
    wfEntries es = true → findEntry n es = some t → wfT t = true
  | n, .nil, t => by simp [findEntry]
  | n, .cons (.file m) rest, t => by
    intro hw hf
    have hw' : wfEntries rest = true := by simpa [wfEntries] using hw
    by_cases h : m = n
    · simp only [findEntry, h, if_true] at hf
      cases hf
      simp [wfT]
    · simp only [findEntry, h, if_false] at hf
      exact findEntry_wf n rest t hw' hf
  | n, .cons (.dir m r sub) rest, t => by
    intro hw hf
    have hw' : (nodupStr (namesOf sub) = true ∧ wfEntries sub = true)
        ∧ wfEntries rest = true := by
      simpa [wfEntries, Bool.and_eq_true] using hw
    by_cases h : m = n
    · simp only [findEntry, h, if_true] at hf
      cases hf
      simp [wfT, Bool.and_eq_true]
      exact hw'.1
    · simp only [findEntry, h, if_false] at hf
      exact findEntry_wf n rest t hw'.2 hf

/-- A node resolved from a well-formed filesystem is well-formed. -/
theorem resolve_wf (d : FsPath) : ∀ (fs : FSTree) (t : FSTree),
    wfT fs = true → resolve fs d = some t → wfT t = true := by
  induction d with
  | nil =>
    intro fs t hw hr
    simp only [resolve] at hr
    cases hr
    exact hw
  | cons n rest ih =>
    intro fs t hw hr
    cases fs with
    | file _ => simp [resolve] at hr
    | dir m r es =>
      have hw' : nodupStr (namesOf es) = true ∧ wfEntries es = true := by
        simpa [wfT, Bool.and_eq_true] using hw
      simp only [resolve] at hr
      cases hf : findEntry n es with
      | none => rw [hf] at hr; cases hr
      | some t' =>
        rw [hf] at hr
        exact ih t' t (findEntry_wf n es t' hw'.2 hf) hr

/-- One loop iteration of `WatchedDirs::scan` appends that root's
contribution, whatever the accumulated images were. -/
theorem scanRoot_append (fs : FSTree) (images : List FsPath) (dir : FsPath) :
    scanRoot fs images dir = images ++ rootContrib fs dir := by
  cases h : resolve fs dir with
  | none => simp [scanRoot, rootContrib, h]
  | some t =>
    simp only [scanRoot, rootContrib, h]
    rw [collectT_acc]

/-- A scan pass is the concatenation of the per-root contributions: each
root is scanned independently, so a failure inside one root never affects
what the other roots contribute. -/
theorem scan_eq_flatMap (fs : FSTree) (dirs : List FsPath) :
    ∀ acc : List FsPath,
      dirs.foldl (scanRoot fs) acc = acc ++ dirs.flatMap (rootContrib fs) := by
  induction dirs with
  | nil => intro acc; simp
  | cons d rest ih =>
    intro acc
    simp only [List.foldl_cons, List.flatMap_cons]
    rw [scanRoot_append, ih, List.append_assoc]

/-- The contribution of a fully readable root is exactly the spec-side
reachable set. -/
theorem rootContrib_full (fs : FSTree) (d : FsPath) (t : FSTree)
    (hres : resolve fs d = some t) (hr : allReadableT t = true) :
    rootContrib fs d = specImagesT d t := by
  simp only [rootContrib, scanRoot, hres]
  rw [collectT_full d t hr]

/-- The contribution of any resolving root is an initial segment of the
spec-side reachable set, and all of it when the traversal succeeded. -/
theorem rootContrib_pre (fs : FSTree) (d : FsPath) (t : FSTree)
    (hres : resolve fs d = some t) :
    rootContrib fs d <+: specImagesT d t
    ∧ ((collect_images_recursive d t []).2 = true →
        rootContrib fs d = specImagesT d t) := by
  simp only [rootContrib, scanRoot, hres]
  exact collectT_pre d t

/-! ### Helper lemmas about the reconciler -/

theorem sqrtCeilGo_spec (n : Nat) : ∀ (fuel k : Nat),
    n ≤ (k + fuel) * (k + fuel) →
    n ≤ sqrtCeilGo n fuel k * sqrtCeilGo n fuel k
    ∧ k ≤ sqrtCeilGo n fuel k
    ∧ ∀ m, k ≤ m → n ≤ m * m → sqrtCeilGo n fuel k ≤ m := by
  intro fuel
  induction fuel with
  | zero =>
    intro k h
    simp only [sqrtCeilGo]
    exact ⟨by simpa using h, le_refl k, fun m hm _ => hm⟩
  | succ f ih =>
    intro k h
    by_cases hk : n ≤ k * k
    · simp only [sqrtCeilGo]
      rw [if_pos hk]
      exact ⟨hk, le_refl k, fun m hm _ => hm⟩
    · simp only [sqrtCeilGo]
      rw [if_neg hk]
      have h' : n ≤ (k + 1 + f) * (k + 1 + f) := by
        have he : k + 1 + f = k + (f + 1) := by omega
        rw [he]
        exact h
      obtain ⟨h1, h2, h3⟩ := ih (k + 1) h'
      refine ⟨h1, le_trans (Nat.le_succ k) h2, fun m hm hnm => ?_⟩
      have hm1 : k + 1 ≤ m := by
        rcases Nat.eq_or_lt_of_le hm with rfl | hlt
        · exact absurd hnm hk
        · exact hlt
      exact h3 m hm1 hnm

/-- `gridSize n` is large enough: the grid has at least `n` cells. -/
theorem gridSize_le (n : Nat) : n ≤ gridSize n * gridSize n := by
  have h : n ≤ (0 + (n + 1)) * (0 + (n + 1)) := by nlinarith
  exact (sqrtCeilGo_spec n (n + 1) 0 h).1

/-- `gridSize n` is the least side length whose square reaches `n`:
together with `gridSize_le` this says it is the ceiling of `√n`. -/
theorem gridSize_min (n m : Nat) (h : n ≤ m * m) : gridSize n ≤ m := by
  have h0 : n ≤ (0 + (n + 1)) * (0 + (n + 1)) := by nlinarith
  exact (sqrtCeilGo_spec n (n + 1) 0 h0).2.2 m (Nat.zero_le m) h

/-- The commands issued by `slap_img_on_quad` are exactly one spawn per
tile of `spawnedTiles`, in order: the pass never issues a despawn. -/
theorem slap_eq_map_spawn (imgs ps : List FsPath) :
    slap_img_on_quad imgs ps = (spawnedTiles imgs ps).map ECSCommand.spawn := by
  unfold spawnedTiles slap_img_on_quad
  simp only []
  generalize imgs.enum = l
  induction l with
  | nil => simp
  | cons ip rest ih =>
    by_cases h : ip.2 ∈ ps <;> simp [List.filterMap_cons, h] <;> simpa using ih

/-- The target paths of the spawned tiles are the found paths not already
represented, in `found` order. -/
theorem spawned_targets (imgs ps : List FsPath) :
    (spawnedTiles imgs ps).map Tile.target = imgs.filter (fun p => !ps.contains p) := by
  unfold spawnedTiles slap_img_on_quad
  have main : ∀ (l : List FsPath) (k : Nat),
      (((List.enumFrom k l).filterMap (fun ip =>
        if ps.contains ip.2 then none
        else some (ECSCommand.spawn
          { target := ip.2,
            position := calculate_grid_position ip.1 (gridSize imgs.length) quad_spacing }))).filterMap
        (fun c => match c with | .spawn t => some t | .despawn _ => none)).map Tile.target
      = l.filter (fun p => !ps.contains p) := by
    intro l
    induction l with
    | nil => intro k; simp
    | cons p rest ih =>
      intro k
      by_cases h : p ∈ ps <;> simp [List.enumFrom_cons, List.filterMap_cons, h] <;>
        simpa using ih (k + 1)
  simpa using main imgs 0

/-- Applying a pure-spawn command list appends the tiles, in order. -/
theorem applyCommands_spawns : ∀ (ts world : List Tile),
    applyCommands (ts.map ECSCommand.spawn) world = world ++ ts := by
  intro ts
  induction ts with
  | nil => intro world; simp [applyCommands]
  | cons t rest ih =>
    intro world
    simp [applyCommands, ih]

/-- A guarded reconciliation pass appends exactly the spawned tiles; when
the guard blocks it (no images), it appends nothing. -/
theorem update_step_eq (w : WatchedDirs) (world : List Tile) :
    update_step w world = world ++ spawnedTiles w.imgs (world.map Tile.target) := by
  unfold update_step
  by_cases h : w.imgs = []
  · simp [h, WatchedDirs.should_run, spawnedTiles, slap_img_on_quad]
  · have hg : WatchedDirs.should_run w = true := by
      simp [WatchedDirs.should_run, h]
    rw [hg, if_pos rfl, slap_eq_map_spawn, applyCommands_spawns]

/-- A run of passes only ever appends tiles to the world. -/
theorem runPasses_eq_append : ∀ (fss : List (List FsPath)) (world : List Tile),
    runPasses fss world = world ++ (runPasses fss world).drop world.length := by
  intro fss
  induction fss with
  | nil => intro world; simp [runPasses]
  | cons f rest ih =>
    intro world
    have hc : runPasses (f :: rest) world =
        runPasses rest (world ++ spawnedTiles f (world.map Tile.target)) := by
      simp [runPasses, update_step_eq]
    rw [hc, ih (world ++ spawnedTiles f (world.map Tile.target))]
    rw [List.append_assoc]
    congr 1
    rw [List.drop_left]

/-- A scan pass's image list, closed form. -/
theorem scan_imgs (fs : FSTree) (w : WatchedDirs) :
    (WatchedDirs.scan fs w).imgs = w.dirs.flatMap (rootContrib fs) := by
  have h := scan_eq_flatMap fs w.dirs []
  simpa [WatchedDirs.scan] using h

/-- Under full readability, a root contributes exactly its spec-side set. -/
theorem rootContrib_eq_specRoot (fs : FSTree) (d : FsPath)
    (h : Option.all allReadableT (resolve fs d) = true) :
    rootContrib fs d = specImagesRoot fs d := by
  cases hres : resolve fs d with
  | none => simp [rootContrib, scanRoot, specImagesRoot, hres]
  | some t =>
    have hall : allReadableT t = true := by
      rw [hres] at h
      simpa [Option.all] using h
    simp only [specImagesRoot, hres]
    exact rootContrib_full fs d t hres hall

/-- Whatever a root contributes lies strictly below that root. -/
theorem rootContrib_under (fs : FSTree) (d : FsPath) (q : FsPath)
    (hq : q ∈ rootContrib fs d) : ∃ m s, q = d ++ m :: s := by
  cases hres : resolve fs d with
  | none => simp [rootContrib, scanRoot, hres] at hq
  | some t =>
    have hsub := (rootContrib_pre fs d t hres).1.sublist
    exact specT_under d t q (hsub.subset hq)

/-- In a well-formed filesystem, a single root's contribution has no
duplicates. -/
theorem rootContrib_nodup (fs : FSTree) (d : FsPath) (hwf : wfT fs = true) :
    (rootContrib fs d).Nodup := by
  cases hres : resolve fs d with
  | none => simp [rootContrib, scanRoot, hres]
  | some t =>
    exact (rootContrib_pre fs d t hres).1.sublist.nodup
      (specT_nodup d t (resolve_wf d fs t hwf hres))

/-- In a duplicate-free list, a member is counted exactly once. -/
theorem count_one_of_nodup {α : Type} [BEq α] [LawfulBEq α] {l : List α} {p : α}
    (hnd : l.Nodup) (hp : p ∈ l) : l.count p = 1 := by
  induction l with
  | nil => simp at hp
  | cons a l ih =>
    rw [List.count_cons]
    rcases List.mem_cons.1 hp with rfl | hpl
    · have hz : l.count p = 0 := by
        rw [List.count_eq_zero]
        exact (List.nodup_cons.1 hnd).1
      simp [hz]
    · have hne : ¬ p = a := by
        intro he
        exact (List.nodup_cons.1 hnd).1 (he ▸ hpl)
      rw [ih (List.nodup_cons.1 hnd).2 hpl]
      have hne' : ¬ a = p := fun he => hne he.symm
      simp [hne']

/-- Tiles are spawned exactly for the spawn commands the pass queues. -/
theorem mem_spawnedTiles_iff (imgs ps : List FsPath) (t : Tile) :
    t ∈ spawnedTiles imgs ps ↔ ECSCommand.spawn t ∈ slap_img_on_quad imgs ps := by
  rw [slap_eq_map_spawn]
  simp

/-! ### The claims -/

/-- C1: after a completed (error-free) scan pass, the `imgs` list holds
exactly the files reachable recursively under the existing roots whose
extension is supported, case-insensitively; non-existent roots contribute
nothing without affecting the others, and nothing from a prior pass
survives (the result is independent of the previous `imgs`). The
readability hypothesis states the pass encountered no read error. -/
theorem claim_C1 (fs : FSTree) (w : WatchedDirs)
    (hread : ∀ d ∈ w.dirs, Option.all allReadableT (resolve fs d) = true) :
    (∀ q : FsPath,
      q ∈ (WatchedDirs.scan fs w).imgs ↔ ∃ d ∈ w.dirs, q ∈ specImagesRoot fs d)
    ∧ ∀ prev : List FsPath,
        (WatchedDirs.scan fs { dirs := w.dirs, imgs := prev }).imgs
          = (WatchedDirs.scan fs w).imgs := by
  constructor
  · intro q
    rw [scan_imgs, List.mem_flatMap]
    constructor
    · rintro ⟨d, hd, hq⟩
      refine ⟨d, hd, ?_⟩
      rw [← rootContrib_eq_specRoot fs d (hread d hd)]
      exact hq
    · rintro ⟨d, hd, hq⟩
      refine ⟨d, hd, ?_⟩
      rw [rootContrib_eq_specRoot fs d (hread d hd)]
      exact hq
  · intro prev
    rfl

/-- C1 witness: the spec's own scenario; the file `a/sub/y.PNG` is found
(case-insensitive match) exactly because it is spec-side reachable, on a
scan that started with a stale entry in `imgs`. -/
theorem claim_C1_witness :
    ["a", "sub", "y.PNG"]
        ∈ (WatchedDirs.scan fsDemo { dirs := [["a"]], imgs := [["stale"]] }).imgs
      ↔ ∃ d ∈ [(["a"] : FsPath)], ["a", "sub", "y.PNG"] ∈ specImagesRoot fsDemo d :=
  (claim_C1 fsDemo { dirs := [["a"]], imgs := [["stale"]] } (by decide)).1
    ["a", "sub", "y.PNG"]

/-- C2 counterexample: when a single pass's `found` list holds the same
path twice (which a scan can produce, e.g. from a repeated root), the
existing-path set — computed once, before the deferred spawns apply — does
not catch the second occurrence, and two tiles are created for one path. -/
theorem claim_C2_counterexample :
    ¬ ((runPasses [[["a.jpg"], ["a.jpg"]]] []).map Tile.target).Nodup := by
  decide

/-- C2 (amended): provided every pass's `found` list is itself free of
duplicate paths, the tiles created over any sequence of reconciliation
passes have pairwise distinct paths, and never reuse a path already
present in the initial tile world. -/
theorem claim_C2 (fss : List (List FsPath)) (world : List Tile)
    (hnd : ∀ f ∈ fss, f.Nodup) :
    (((runPasses fss world).drop world.length).map Tile.target).Nodup
    ∧ ∀ t ∈ (runPasses fss world).drop world.length,
        t.target ∉ world.map Tile.target := by
  induction fss generalizing world with
  | nil =>
    constructor
    · simp [runPasses]
    · intro t ht
      simp [runPasses] at ht
  | cons f rest ih =>
    have hrest : ∀ g ∈ rest, g.Nodup := fun g hg => hnd g (by simp [hg])
    have hf : f.Nodup := hnd f (by simp)
    have hc : runPasses (f :: rest) world =
        runPasses rest (world ++ spawnedTiles f (world.map Tile.target)) := by
      simp [runPasses, update_step_eq]
    obtain ⟨ihnd, ihmem⟩ := ih (world ++ spawnedTiles f (world.map Tile.target)) hrest
    have hR := runPasses_eq_append rest (world ++ spawnedTiles f (world.map Tile.target))
    have hdrop : (runPasses (f :: rest) world).drop world.length
        = spawnedTiles f (world.map Tile.target)
          ++ (runPasses rest (world ++ spawnedTiles f (world.map Tile.target))).drop
              (world ++ spawnedTiles f (world.map Tile.target)).length := by
      conv_lhs => rw [hc, hR]
      rw [List.append_assoc, List.drop_left]
    constructor
    · rw [hdrop, List.map_append]
      refine List.Nodup.append ?_ ihnd ?_
      · rw [spawned_targets]
        exact hf.filter _
      · rw [List.disjoint_left]
        intro q hq1 hq2
        obtain ⟨t, htC, rfl⟩ := List.mem_map.1 hq2
        have hmem := ihmem t htC
        apply hmem
        rw [List.map_append]
        exact List.mem_append_right _ hq1
    · intro t ht
      rw [hdrop] at ht
      rcases List.mem_append.1 ht with h1 | h2
      · have htar : t.target ∈ (spawnedTiles f (world.map Tile.target)).map Tile.target :=
          List.mem_map_of_mem _ h1
        rw [spawned_targets] at htar
        have hcond := (List.mem_filter.1 htar).2
        simpa using hcond
      · intro hmem
        exact ihmem t h2 (by rw [List.map_append]; exact List.mem_append_left _ hmem)

/-- C2 witness: two passes over duplicate-free lists create tiles with
pairwise distinct paths. -/
theorem claim_C2_witness :
    (((runPasses [[["a.jpg"], ["b.png"]], [["b.png"], ["c.gif"]]] ([] : List Tile)).drop
        ([] : List Tile).length).map Tile.target).Nodup :=
  (claim_C2 [[["a.jpg"], ["b.png"]], [["b.png"], ["c.gif"]]] [] (by decide)).1

/-- C3 counterexample: under root `r`, the unreadable directory `bad` is
visited before the sibling file `ok.jpg`; the error aborts the whole
root's traversal, so the not-yet-visited sibling is NOT collected even
though it is a supported image reachable under the root — contradicting
the claim that only the failing subtree is abandoned. -/
theorem claim_C3_counterexample :
    (WatchedDirs.scan fsErr { dirs := [["r"]], imgs := [] }).imgs = []
    ∧ ["r", "ok.jpg"] ∈ specImagesRoot fsErr ["r"] := by
  constructor
  · decide
  · decide

/-- C3 (amended): a read failure on a directory aborts the traversal of
the remainder of that entire root — files already appended before the
failure are kept (the result is an initial segment of the root's
reachable set, all of it when the traversal succeeds) — while the other
roots are scanned independently (the pass is the concatenation of
per-root contributions), and the scan step never propagates an error. -/
theorem claim_C3 (fs : FSTree) (w : WatchedDirs) :
    (WatchedDirs.scan fs w).imgs = w.dirs.flatMap (rootContrib fs)
    ∧ ∀ (d : FsPath) (t : FSTree), resolve fs d = some t →
        rootContrib fs d <+: specImagesT d t
        ∧ ((collect_images_recursive d t []).2 = true →
            rootContrib fs d = specImagesT d t) := by
  constructor
  · exact scan_imgs fs w
  · intro d t h
    exact rootContrib_pre fs d t h

/-- C3 witness: on the concrete failing disk, the truncated contribution
of root `r` is an initial segment of its reachable set. -/
theorem claim_C3_witness :
    rootContrib fsErr ["r"] <+: specImagesT ["r"] nodeR
    ∧ ((collect_images_recursive ["r"] nodeR []).2 = true →
        rootContrib fsErr ["r"] = specImagesT ["r"] nodeR) :=
  (claim_C3 fsErr { dirs := [["r"]], imgs := [] }).2 ["r"] nodeR rfl

/-- C4 counterexample: the scanner performs no deduplication — listing the
same root twice makes every image under it appear twice in `imgs`. -/
theorem claim_C4_counterexample :
    ¬ (WatchedDirs.scan fsDemo { dirs := [["a"], ["a"]], imgs := [] }).imgs.Nodup := by
  decide

/-- C4 (amended): when the watched roots are pairwise non-nested (no root
is a prefix of another, and no root repeats) and the filesystem is
well-formed (sibling names distinct, as on a real disk), the scanned file
list has no duplicate paths — even in the presence of read errors. -/
theorem claim_C4 (fs : FSTree) (w : WatchedDirs)
    (hwf : wfT fs = true)
    (hsep : w.dirs.Pairwise (fun a b => ¬ a <+: b ∧ ¬ b <+: a)) :
    (WatchedDirs.scan fs w).imgs.Nodup := by
  rw [scan_imgs]
  generalize w.dirs = l at hsep
  induction l with
  | nil => simp
  | cons d rest ih =>
    obtain ⟨hd, hl⟩ := List.pairwise_cons.1 hsep
    rw [List.flatMap_cons]
    refine List.Nodup.append (rootContrib_nodup fs d hwf) (ih hl) ?_
    rw [List.disjoint_left]
    intro q hq1 hq2
    obtain ⟨b, hb, hqb⟩ := List.mem_flatMap.1 hq2
    obtain ⟨m1, s1, he1⟩ := rootContrib_under fs d q hq1
    obtain ⟨m2, s2, he2⟩ := rootContrib_under fs b q hqb
    have hd1 : d <+: q := by
      rw [he1]
      exact List.prefix_append d (m1 :: s1)
    have hb1 : b <+: q := by
      rw [he2]
      exact List.prefix_append b (m2 :: s2)
    rcases List.prefix_or_prefix_of_prefix hd1 hb1 with h | h
    · exact (hd b hb).1 h
    · exact (hd b hb).2 h

/-- C4 witness: two disjoint sibling roots yield a duplicate-free list on
a well-formed disk. -/
theorem claim_C4_witness :
    (WatchedDirs.scan fsDemo { dirs := [["a"], ["b"]], imgs := [] }).imgs.Nodup :=
  claim_C4 fsDemo { dirs := [["a"], ["b"]], imgs := [] } (by decide) (by decide)

/-- C5: the tile spawned for the path at index `i` of the full `found`
sequence is placed by `calculate_grid_position` at grid side
`gridSize |found|`; the position follows the claimed formula
(`col·2.5 − (g−1)·2.5/2`, `0`, `row·2.5 − (g−1)·2.5/2`), the grid side is
the ceiling of `√|found|` (characterised as the least `k` with
`|found| ≤ k²`), and the 5-image scenario puts index 3 at `(-2.5, 0, 0)`. -/
theorem claim_C5 (imgs ps : List FsPath) (i : Nat) (h : i < imgs.length)
    (hnew : imgs.get ⟨i, h⟩ ∉ ps) :
    (Tile.mk (imgs.get ⟨i, h⟩)
        (calculate_grid_position i (gridSize imgs.length) quad_spacing)
      ∈ spawnedTiles imgs ps)
    ∧ calculate_grid_position i (gridSize imgs.length) quad_spacing
        = (((i % gridSize imgs.length : Nat) : ℚ) * (5 / 2)
              - ((gridSize imgs.length : ℚ) - 1) * (5 / 2) / 2,
           0,
           ((i / gridSize imgs.length : Nat) : ℚ) * (5 / 2)
              - ((gridSize imgs.length : ℚ) - 1) * (5 / 2) / 2)
    ∧ imgs.length ≤ gridSize imgs.length * gridSize imgs.length
    ∧ (∀ m : Nat, imgs.length ≤ m * m → gridSize imgs.length ≤ m)
    ∧ gridSize 5 = 3
    ∧ calculate_grid_position 3 3 quad_spacing = (-(5 / 2 : ℚ), 0, 0) := by
  refine ⟨?_, ?_, gridSize_le _, fun m hm => gridSize_min _ m hm, by decide, ?_⟩
  · rw [mem_spawnedTiles_iff]
    unfold slap_img_on_quad
    simp only []
    apply List.mem_filterMap.2
    refine ⟨(i, imgs.get ⟨i, h⟩), ?_, ?_⟩
    · have hlen : i < imgs.enum.length := by simpa [List.enum_length] using h
      have hget : imgs.enum[i] = (i, imgs[i]) := List.getElem_enum imgs i hlen
      have hmem : imgs.enum[i] ∈ imgs.enum := List.getElem_mem hlen
      rw [hget] at hmem
      simpa [List.get_eq_getElem] using hmem
    · have hnew' : imgs[i] ∉ ps := by simpa [List.get_eq_getElem] using hnew
      simp [List.get_eq_getElem, hnew']
  · simp only [calculate_grid_position, quad_spacing, Prod.mk.injEq]
    exact ⟨by ring, trivial, by ring⟩
  · norm_num [calculate_grid_position, quad_spacing]

/-- C5 witness: in a two-image list the unrepresented path at index 0 gets
a tile at the computed position. -/
theorem claim_C5_witness :
    Tile.mk ["x.jpg"] (calculate_grid_position 0 (gridSize 2) quad_spacing)
      ∈ spawnedTiles [["x.jpg"], ["b.jpg"]] [] :=
  (claim_C5 [["x.jpg"], ["b.jpg"]] [] 0 (by decide) (by decide)).1

/-- C6 counterexample: `["a.jpg"]` occurs in `found` and is absent from
the existing set, yet the pass creates two tiles for it (the duplicate
occurrence is not caught within the pass), not exactly one. -/
theorem claim_C6_counterexample :
    ((["a.jpg"] : FsPath) ∈ [(["a.jpg"] : FsPath), ["a.jpg"]]
      ∧ (["a.jpg"] : FsPath) ∉ ([] : List FsPath))
    ∧ ((spawnedTiles [["a.jpg"], ["a.jpg"]] []).map Tile.target).count ["a.jpg"] = 2
    ∧ ¬ ((spawnedTiles [["a.jpg"], ["a.jpg"]] []).map Tile.target).count ["a.jpg"] = 1 := by
  refine ⟨by decide, by decide, by decide⟩

/-- C6 (amended): a pass creates a tile for `P` iff `P` occurs in `found`
and is absent from the existing-path set; exactly one such tile when
`found` is duplicate-free; and a second pass over the unchanged `found`,
with the first pass's tiles registered, creates zero tiles. -/
theorem claim_C6 (imgs ps : List FsPath) :
    (∀ p : FsPath, (∃ t ∈ spawnedTiles imgs ps, t.target = p) ↔ (p ∈ imgs ∧ p ∉ ps))
    ∧ (imgs.Nodup → ∀ p ∈ imgs, p ∉ ps →
        ((spawnedTiles imgs ps).map Tile.target).count p = 1)
    ∧ spawnedTiles imgs (ps ++ (spawnedTiles imgs ps).map Tile.target) = [] := by
  refine ⟨?_, ?_, ?_⟩
  · intro p
    have hmm : (∃ t ∈ spawnedTiles imgs ps, t.target = p)
        ↔ p ∈ (spawnedTiles imgs ps).map Tile.target := by
      simp [List.mem_map, eq_comm]
    rw [hmm, spawned_targets]
    simp [List.mem_filter]
  · intro hnd p hp hnp
    rw [spawned_targets]
    rw [List.count_filter (by simp [hnp])]
    exact count_one_of_nodup hnd hp
  · have hmap : (spawnedTiles imgs
        (ps ++ (spawnedTiles imgs ps).map Tile.target)).map Tile.target = [] := by
      rw [spawned_targets]
      rw [List.filter_eq_nil_iff]
      intro p hp
      simp only [Bool.not_eq_true', Bool.not_eq_false]
      by_cases hmem : p ∈ ps
      · simp [hmem]
      · have : p ∈ (spawnedTiles imgs ps).map Tile.target := by
          rw [spawned_targets]
          exact List.mem_filter.2 ⟨hp, by simp [hmem]⟩
        simp [this]
    exact List.map_eq_nil_iff.1 hmap

/-- C6 witness: a fresh path in a duplicate-free `found` gets exactly one
tile. -/
theorem claim_C6_witness :
    ((spawnedTiles [["a.jpg"]] []).map Tile.target).count ["a.jpg"] = 1 :=
  (claim_C6 [["a.jpg"]] []).2.1 (by decide) ["a.jpg"] (by decide) (by decide)

/-- C7: the scan step is rate-limited: with a recorded previous scan less
than `scan_interval` old, the step is a no-op (state and `last_scan`
unchanged); consequently two calls in immediate succession leave the
second call with nothing to do, whatever the initial `last_scan` state. -/
theorem claim_C7 (fs : FSTree) (w : WatchedDirs) :
    (∀ last elapsed : ℚ, elapsed - last < scan_interval →
        scan_directories_system fs elapsed w (some last) = (w, some last))
    ∧ ∀ (l0 : Option ℚ) (t1 : ℚ),
        scan_directories_system fs t1
            (scan_directories_system fs t1 w l0).1
            (scan_directories_system fs t1 w l0).2
          = scan_directories_system fs t1 w l0 := by
  have hself : ∀ t1 : ℚ, t1 - t1 < scan_interval := by
    intro t1
    simp only [sub_self, scan_interval]
    norm_num
  constructor
  · intro last elapsed h
    simp [scan_directories_system, h]
  · intro l0 t1
    have h5 : (0 : ℚ) < scan_interval := by norm_num [scan_interval]
    cases l0 with
    | none => simp [scan_directories_system, sub_self, h5]
    | some t0 =>
      by_cases h : t1 - t0 < scan_interval
      · simp [scan_directories_system, h]
      · simp [scan_directories_system, h, sub_self, h5]

/-- C7 witness: a no-op second scan at time 0 with a scan recorded at 0. -/
theorem claim_C7_witness :
    scan_directories_system fsDemo 0 { dirs := [], imgs := [] } (some 0)
      = ({ dirs := [], imgs := [] }, some 0) :=
  (claim_C7 fsDemo { dirs := [], imgs := [] }).1 0 0 (by simp [scan_interval])

/-- C8: the reconciliation guard holds exactly when `found` is non-empty,
and with an empty `found` the update step leaves the tile world
untouched (no reconciliation work, no tile creation). -/
theorem claim_C8 (w : WatchedDirs) (world : List Tile) :
    (WatchedDirs.should_run w = true ↔ w.imgs ≠ [])
    ∧ (w.imgs = [] → update_step w world = world) := by
  constructor
  · simp [WatchedDirs.should_run]
  · intro h
    simp [update_step, WatchedDirs.should_run, h]

/-- C8 witness: the guarded step is the identity on an empty `found`. -/
theorem claim_C8_witness :
    update_step { dirs := [], imgs := [] } [sampleTile] = [sampleTile] :=
  (claim_C8 { dirs := [], imgs := [] } [sampleTile]).2 rfl

/-- C9: spawning is the only mutation a pass performs: the queued commands
are all spawns (despawn, though available, is never issued), applying them
appends the new tiles after the existing ones, and every pre-existing tile
survives the pass with its path and position intact — whatever `found`
and hence the recomputed grid size are. -/
theorem claim_C9 (imgs : List FsPath) (world : List Tile) :
    applyCommands (slap_img_on_quad imgs (world.map Tile.target)) world
      = world ++ spawnedTiles imgs (world.map Tile.target)
    ∧ (∀ c ∈ slap_img_on_quad imgs (world.map Tile.target),
        ∃ t : Tile, c = ECSCommand.spawn t)
    ∧ ∀ t ∈ world,
        t ∈ applyCommands (slap_img_on_quad imgs (world.map Tile.target)) world := by
  have happ : applyCommands (slap_img_on_quad imgs (world.map Tile.target)) world
      = world ++ spawnedTiles imgs (world.map Tile.target) := by
    rw [slap_eq_map_spawn, applyCommands_spawns]
  refine ⟨happ, ?_, ?_⟩
  · intro c hc
    rw [slap_eq_map_spawn] at hc
    obtain ⟨t, _, rfl⟩ := List.mem_map.1 hc
    exact ⟨t, rfl⟩
  · intro t ht
    rw [happ]
    exact List.mem_append_left _ ht

/-- C9 witness: a concrete pre-existing tile survives a pass over a
`found` list that grew. -/
theorem claim_C9_witness :
    sampleTile ∈ applyCommands
        (slap_img_on_quad [["w.jpg"], ["n.png"]] ([sampleTile].map Tile.target))
        [sampleTile] :=
  (claim_C9 [["w.jpg"], ["n.png"]] [sampleTile]).2.2 sampleTile (List.mem_singleton.mpr rfl)

/-- C10: with a non-empty `found` (the guard's precondition), the grid
side is at least 1, so the division and remainder in
`calculate_grid_position` never divide by zero, and for every index
`i < |found|` both `i % gridSize` and `i / gridSize` lie in
`[0, gridSize)` because `|found| ≤ gridSize²`. -/
theorem claim_C10 (imgs : List FsPath) (hne : imgs ≠ []) :
    1 ≤ gridSize imgs.length
    ∧ ∀ i : Nat, i < imgs.length →
        i % gridSize imgs.length < gridSize imgs.length
        ∧ i / gridSize imgs.length < gridSize imgs.length := by
  have hlen : 0 < imgs.length := List.length_pos.2 hne
  have hg : 0 < gridSize imgs.length := by
    rcases Nat.eq_zero_or_pos (gridSize imgs.length) with h0 | h
    · exfalso
      have hle := gridSize_le imgs.length
      rw [h0] at hle
      omega
    · exact h
  refine ⟨hg, fun i hi => ⟨Nat.mod_lt i hg, ?_⟩⟩
  have hile : i < gridSize imgs.length * gridSize imgs.length :=
    lt_of_lt_of_le hi (gridSize_le _)
  exact (Nat.div_lt_iff_lt_mul hg).2 hile

/-- C10 witness: a singleton `found` gives a positive grid side. -/
theorem claim_C10_witness :
    1 ≤ gridSize ([["a.jpg"]] : List FsPath).length :=
  (claim_C10 [["a.jpg"]] (by decide)).1
